import Mathlib

/-!
Shallow embedding of the py-cf-metadata revision-history engine
(`py_cf_metadata/classdefs.py` and `py_cf_metadata/xml_parsers.py`).

Records of the CF dataclasses are modelled as lists of fields, each field
carrying its name, its dataclass `compare` flag (identity vs mutable) and its
string value.  Histories are the `RevisionHistoryWrapper` parallel lists.
Release numbers are integers, with the source's sentinels: `-1` for an
uninitialized / open end marker and `0` for the "current" head snapshot.
Python exceptions are modelled by explicit success flags or `Except`;
in-place mutation is modelled by returning the mutated value.
-/

-- sentinel value for uninitialized/unset version number (classdefs.py line 12)
def UNINIT_V : Int := -1

-- sentinel value for processing the "current" version (classdefs.py line 16)
def CURRENT_V : Int := 0

/-- One dataclass field: name, the dataclass compare flag (True for identity
fields, False for mutable fields) and the current string value. -/
structure CFField where
  name : String
  compare : Bool
  value : String
deriving DecidableEq, Repr

/-- A dataclass instance is its ordered list of fields. -/
abbrev Record := List CFField

/-- Default field used with getD lookups. -/
def fdfl : CFField := ⟨"", true, ""⟩

namespace CFBase

/-- Model of the class check `assert self.__class__ == other.__class__`
together with the fact that two instances of one dataclass share field
names and compare flags. -/
def sameShape : Record → Record → Bool
  | [], [] => true
  | f :: fs, g :: gs => (f.name == g.name) && (f.compare == g.compare) && sameShape fs gs
  | _, _ => false

/-- The spec predicate: two records are compatible iff they have the same
shape and all identity (compare=True) fields have equal values. -/
def compatible (a b : Record) : Bool :=
  sameShape a b && (a.zip b).all fun p => (!p.1.compare) || (p.1.value == p.2.value)

/-- CFBase.update (classdefs.py lines 76-94): walk the fields in order; a
compare=True field whose values differ raises ValueError (success flag false,
fields from that point on untouched); a compare=False field is overwritten
in place with the other record's value.  The returned record is the state of
`self` when the loop finishes or the exception is raised. -/
def update : Record → Record → Record × Bool
  | [], [] => ([], true)
  | f :: fs, g :: gs =>
      if f.compare then
        if f.value == g.value then
          let r := update fs gs
          (f :: r.1, r.2)
        else
          (f :: fs, false)
      else
        let r := update fs gs
        (⟨f.name, f.compare, g.value⟩ :: r.1, r.2)
  | fs, _ => (fs, false)

/-- The spec's merge_mutable: keep identity fields, take mutable values from
the source record. -/
def merge_mutable (a b : Record) : Record :=
  (a.zip b).map fun p => if p.1.compare then p.1 else ⟨p.1.name, p.1.compare, p.2.value⟩

/-- CFBase.to_struct (classdefs.py lines 70-74): the dict of non-blank
fields, as an association list in field order. -/
def to_struct (r : Record) : List (String × String) :=
  (r.filter fun f => f.value ≠ "").map fun f => (f.name, f.value)

end CFBase

/-- Python bisect.bisect_right inner loop: binary search returning the
insertion point to the right of existing entries equal to the key.  The
fuel argument bounds the iteration count: each loop iteration shrinks
hi - lo, so fuel equal to the initial interval length always suffices and
the fuel case split never changes the computed answer. -/
def bsGo (a : List Int) (x : Int) : Nat → Nat → Nat → Nat
  | 0, lo, _ => lo
  | fuel + 1, lo, hi =>
    if lo < hi then
      let mid := (lo + hi) / 2
      if x < a.getD mid 0 then bsGo a x fuel lo mid else bsGo a x fuel (mid + 1) hi
    else lo

/-- bisect.bisect_right(a, x) as used in classdefs.py. -/
def bisect_right (a : List Int) (x : Int) : Nat :=
  bsGo a x a.length 0 a.length

/-- RevisionHistoryWrapper (classdefs.py lines 103-194): three parallel
lists holding the revisions and their start/end release markers. -/
structure RevisionHistoryWrapper where
  revisions : List Record
  revision_start : List Int
  revision_end : List Int
deriving DecidableEq, Repr

namespace RevisionHistoryWrapper

/-- RevisionHistoryWrapper.from_obj (lines 131-137). -/
def from_obj (r : Record) (start_v : Int) : RevisionHistoryWrapper :=
  ⟨[r], [start_v], [UNINIT_V]⟩

/-- RevisionHistoryWrapper.end_revision (lines 149-151): if the last end
marker is the uninitialized sentinel, set it to current_v - 1.  (On an empty
history Python raises IndexError; this model leaves the value unchanged, and
every theorem about end_revision assumes a non-empty history.) -/
def end_revision (h : RevisionHistoryWrapper) (current_v : Int) : RevisionHistoryWrapper :=
  if h.revision_end.getLastD 0 = UNINIT_V then
    { h with revision_end := h.revision_end.dropLast ++ [current_v - 1] }
  else h

/-- RevisionHistoryWrapper.new_revision (lines 139-147).  When no explicit
end marker is supplied and the history is non-empty, the current last
revision is first closed via end_revision; then the new revision is appended
with the supplied end marker, defaulting to the open sentinel. -/
def new_revision (h : RevisionHistoryWrapper) (new_rev : Record) (current_v : Int)
    (end_v : Option Int) : RevisionHistoryWrapper :=
  let h' := if 0 < h.revision_end.length ∧ end_v = none then h.end_revision current_v else h
  { revisions := h'.revisions ++ [new_rev],
    revision_start := h'.revision_start ++ [current_v],
    revision_end := h'.revision_end ++ [match end_v with | none => UNINIT_V | some e => e] }

/-- RevisionHistoryWrapper.update (lines 153-166): try to update the last
revision in place; if CFBase.update raises ValueError the last revision is
restored from the backup copy and the incoming record is appended as a new
revision instead. -/
def update (h : RevisionHistoryWrapper) (x : Record) (current_v : Int) :
    RevisionHistoryWrapper :=
  let current_rev := h.revisions.getLastD []
  let r := CFBase.update current_rev x
  if r.2 then
    { h with revisions := h.revisions.dropLast ++ [r.1] }
  else
    h.new_revision x current_v none

/-- RevisionHistoryWrapper.filter_by_version (lines 180-191). -/
def filter_by_version (h : RevisionHistoryWrapper) (version : Int) : Option Record :=
  let not_current := h.revision_end.getLastD 0 ≠ UNINIT_V
  let idx := bisect_right h.revision_start version
  if idx = 0 then
    none
  else if idx = h.revision_start.length ∧ not_current ∧ version > h.revision_end.getLastD 0 then
    none
  else
    some (h.revisions.getD (idx - 1) [])

/-- RevisionHistoryWrapper.to_struct (lines 120-129): one descriptor per
revision, holding the record's non-blank attributes, the start marker, and
the end marker only when it is not the open sentinel. -/
def to_struct (h : RevisionHistoryWrapper) :
    List (List (String × String) × Int × Option Int) :=
  (h.revisions.zip (h.revision_start.zip h.revision_end)).map fun p =>
    (CFBase.to_struct p.1, p.2.1, if p.2.2 ≠ UNINIT_V then some p.2.2 else none)

/-- RevisionHistoryWrapper.from_struct (classdefs.py lines 110-118), as the
source actually behaves.  The loop body evaluates
cls.WrappedDataclass.from_struct(d), but WrappedDataclass is an InitVar field
whose default None remains the class attribute: the value that from_obj
passes to the constructor is discarded by the generated init (the class
defines no post-init hook), and nothing else ever rebinds it.  Hence
cls.WrappedDataclass is always None and the first loop iteration raises
AttributeError; only the empty descriptor list, which never enters the loop,
returns normally (the empty wrapper). -/
def from_struct (l : List (List (String × String) × Int × Option Int)) :
    Except String RevisionHistoryWrapper :=
  match l with
  | [] => Except.ok ⟨[], [], []⟩
  | _ :: _ =>
      Except.error "AttributeError: NoneType object has no attribute from_struct"

/-- Invariant: every end marker except possibly the last one is concrete. -/
def onlyLastOpen (h : RevisionHistoryWrapper) : Prop :=
  ∀ e ∈ h.revision_end.dropLast, e ≠ UNINIT_V

instance (h : RevisionHistoryWrapper) : Decidable (onlyLastOpen h) :=
  List.decidableBAll _ _

end RevisionHistoryWrapper

/-- Well-formedness bundle maintained by ingestion up to release v: the start
markers strictly increase, only the last end marker may be open, the three
parallel lists are non-empty and of equal length, and the last start marker
does not exceed the last ingested release. -/
def histInv (h : RevisionHistoryWrapper) (v : Int) : Prop :=
  h.revision_start.Chain' (· < ·) ∧ h.onlyLastOpen ∧ h.revisions ≠ [] ∧
  h.revision_start.length = h.revisions.length ∧
  h.revision_end.length = h.revisions.length ∧
  h.revision_start.getLastD 0 ≤ v

namespace RevisionDateList

/-- RevisionDateList.version_from_date (classdefs.py lines 283-292).  The
index is the insertion-ordered list of (release key, date) pairs; dates are
modelled as integers since only their total order matters.  Python raises
ValueError when the stored dates differ from their sorted copy; otherwise it
bisects and returns the key at idx-1, or the first key when idx is 0.  (On an
empty index Python raises IndexError; theorems assume a non-empty index.) -/
def version_from_date (l : List (String × Int)) (dt : Int) : Except String String :=
  let keys := l.map Prod.fst
  let dts := l.map Prod.snd
  if dts = List.insertionSort (· ≤ ·) dts then
    let idx := bisect_right dts dt
    if idx = 0 then Except.ok (keys.getD 0 "") else Except.ok (keys.getD (idx - 1) "")
  else
    Except.error "Revision dates not in sorted order; lookup will fail"

end RevisionDateList

namespace XMLProcessor

/-- First-match association-list lookup, modelling Python dict access. -/
def alookup {α : Type} : List (String × α) → String → Option α
  | [], _ => none
  | (k, v) :: rest, n => if k = n then some v else alookup rest n

/-- Replace the value stored under a key, keeping its position, or append the
pair when the key is absent: Python dict item assignment. -/
def assocSet {α : Type} : List (String × α) → String → α → List (String × α)
  | [], k, v => [(k, v)]
  | (k', v') :: rest, k, v =>
      if k' = k then (k, v) :: rest else (k', v') :: assocSet rest k v

/-- One iteration of the XMLProcessor.process snapshot loop (xml_parsers.py
lines 118-127): when the key is already present and the stored record
compares unequal to the new one, a warning is counted before the assignment
overwrites it.  The comparison update_d[k] != val is Python dataclass
equality, which compares only the fields declared with compare=True; for
records of one dataclass this is exactly the negation of the compatibility
predicate, so duplicates differing only in mutable (compare=False) fields
compare equal and raise no warning. -/
def snapStep (acc : List (String × Record) × Nat) (kv : String × Record) :
    List (String × Record) × Nat :=
  (assocSet acc.1 kv.1 kv.2,
   match alookup acc.1 kv.1 with
   | some v0 => if CFBase.compatible v0 kv.2 then acc.2 else acc.2 + 1
   | none => acc.2)

/-- XMLProcessor.process inner snapshot loop (xml_parsers.py lines 118-127):
fold the parsed (key, record) observations into a dict.  Returns the snapshot
dict and the number of warnings. -/
def buildSnapshot (obs : List (String × Record)) : List (String × Record) × Nat :=
  obs.foldl snapStep ([], 0)

/-- XMLProcessor.dict_update (xml_parsers.py lines 68-104): keys present in
both maps get RevisionHistoryWrapper.update; keys only in the history map get
end_revision; keys only in the snapshot get a fresh from_obj history (Python
appends these in unspecified set order; this model appends them in snapshot
order, which the idempotence claim does not depend on). -/
def dict_update (m : List (String × RevisionHistoryWrapper))
    (upd : List (String × Record)) (v : Int) :
    List (String × RevisionHistoryWrapper) :=
  (m.map fun p =>
    (p.1,
     match alookup upd p.1 with
     | some x => p.2.update x v
     | none => p.2.end_revision v))
  ++ ((upd.filter fun q => (alookup m q.1).isNone).map fun q =>
        (q.1, RevisionHistoryWrapper.from_obj q.2 v))

/-- Model of Python int() on the decimal strings used as version directory
names: fold the digits; any non-numeric string maps to 0 (Python would raise,
which never happens on the version lists handled here). -/
def parseInt (s : String) : Int :=
  if s.data ≠ [] ∧ s.data.all Char.isDigit then
    Int.ofNat (s.data.foldl (fun acc c => acc * 10 + (c.toNat - 48)) 0)
  else 0

/-- Release value used for a version directory name (xml_parsers.py line
111): the "current" head snapshot gets the sentinel CURRENT_V, any other
name is parsed as an integer. -/
def version_of_string (s : String) : Int :=
  if s = "current" then CURRENT_V else parseInt s

/-- XMLProcessor.v_cleanup (xml_parsers.py lines 41-51): drop "current" from
the list of version names, sort the rest numerically, and append "current" at
the end; the maximum numbered version rides along. -/
def v_cleanup (l : List String) : List String × Int :=
  let ints := (l.erase "current").map parseInt
  let sorted := List.insertionSort (· ≤ ·) ints
  (sorted.map toString ++ ["current"], sorted.getLastD UNINIT_V)

end XMLProcessor

/-- The values observed for one key within a snapshot, in document order. -/
def valuesOf (k : String) (obs : List (String × Record)) : List Record :=
  (obs.filter fun p => p.1 = k).map Prod.snd

/-- All elements of the list are pairwise equal under dataclass equality,
i.e. pairwise compatible. -/
def allCompat (l : List Record) : Prop :=
  ∀ a ∈ l, ∀ b ∈ l, CFBase.compatible a b = true

/-- One ingestion action applied to a single key's history at release v:
an in-both-maps update, an explicit new revision, or a retirement. -/
inductive Step (v : Int) (h : RevisionHistoryWrapper) : RevisionHistoryWrapper → Prop
  | update (x : Record) : Step v h (h.update x v)
  | newRev (x : Record) : Step v h (h.new_revision x v none)
  | endRev : Step v h (h.end_revision v)

/-- Histories reachable from a first observation by ingestion steps at
strictly increasing releases, every step release satisfying P.  The integer
index records the release of the last ingestion. -/
inductive Built (P : Int → Prop) : RevisionHistoryWrapper → Int → Prop
  | init (r : Record) (v : Int) : Built P (RevisionHistoryWrapper.from_obj r v) v
  | step {h v h' v'} : Built P h v → v < v' → P v' → Step v' h h' →
      Built P h' v'

/-- Records of the worked scenarios of the spec, over a two-field dataclass
with one identity field and one mutable field. -/
def recX : Record := [⟨"type", true, "X"⟩, ⟨"desc", false, "b"⟩]

def recY : Record := [⟨"type", true, "Y"⟩, ⟨"desc", false, "c"⟩]

def recZ : Record := [⟨"type", true, "Z"⟩, ⟨"desc", false, "d"⟩]

/-- Scenario D history: revision 1 covers releases [1,2], revision 2 covers
[3,3], revision 3 reappears at release 6 and is still open. -/
def scenarioD : RevisionHistoryWrapper :=
  ⟨[recX, recY, recZ], [1, 3, 6], [2, 3, UNINIT_V]⟩

/-- History produced by ingesting at release -1 and then at release 0: the
end marker computed at release 0 is 0 - 1 = -1, the open sentinel. -/
def historyZeroStep : RevisionHistoryWrapper :=
  (RevisionHistoryWrapper.from_obj recX (-1)).new_revision recY 0 none

/-- Date index of the spec's date-lookup scenario: release 1 dated
2021-01-01 and release 2 dated 2021-06-01, dates encoded as yyyymmdd. -/
def dateScenario : List (String × Int) := [("1", 20210101), ("2", 20210601)]

/-! ### General list helpers -/

theorem map_eq_self_of_forall {α : Type} (f : α → α) (l : List α)
    (h : ∀ x ∈ l, f x = x) : l.map f = l := by
  induction l with
  | nil => rfl
  | cons a t ih =>
    simp only [List.map_cons, h a (by simp), List.cons.injEq, true_and]
    exact ih fun x hx => h x (by simp [hx])

theorem getLastD_eq_getD {α : Type} (l : List α) (d : α) (h : l ≠ []) :
    l.getLastD d = l.getD (l.length - 1) d := by
  have hlen : l.length - 1 < l.length := by
    have := List.length_pos.mpr h; omega
  rw [List.getLastD_eq_getLast?, List.getD_eq_getElem l d hlen,
    List.getLast?_eq_getLast l h]
  simp [List.getLast_eq_getElem]

theorem sorted_getD_mono (a : List Int) (ha : a.Sorted (· ≤ ·)) :
    ∀ i j, i ≤ j → j < a.length → a.getD i 0 ≤ a.getD j 0 := by
  intro i j hij hj
  have hi : i < a.length := by omega
  rw [List.getD_eq_getElem a 0 hi, List.getD_eq_getElem a 0 hj]
  rcases Nat.eq_or_lt_of_le hij with rfl | hlt
  · exact le_refl _
  · exact List.pairwise_iff_getElem.mp ha i j hi hj hlt

/-! ### Binary search specification -/

theorem bsGo_spec (a : List Int) (x : Int)
    (hs : ∀ i j, i ≤ j → j < a.length → a.getD i 0 ≤ a.getD j 0) :
    ∀ fuel lo hi, hi - lo ≤ fuel → lo ≤ hi → hi ≤ a.length →
    (∀ i, i < lo → a.getD i 0 ≤ x) →
    (∀ i, hi ≤ i → i < a.length → x < a.getD i 0) →
    lo ≤ bsGo a x fuel lo hi ∧ bsGo a x fuel lo hi ≤ hi ∧
    (∀ i, i < bsGo a x fuel lo hi → a.getD i 0 ≤ x) ∧
    (∀ i, bsGo a x fuel lo hi ≤ i → i < a.length → x < a.getD i 0) := by
  intro fuel
  induction fuel with
  | zero =>
    intro lo hi hfuel hlh hha hlo hhi
    have heq : hi = lo := by omega
    subst heq
    exact ⟨le_refl _, le_refl _, hlo, fun i hge hlt => hhi i hge hlt⟩
  | succ n ih =>
    intro lo hi hfuel hlh hha hlo hhi
    have hunf : bsGo a x (n + 1) lo hi =
        if lo < hi then
          if x < a.getD ((lo + hi) / 2) 0 then bsGo a x n lo ((lo + hi) / 2)
          else bsGo a x n ((lo + hi) / 2 + 1) hi
        else lo := rfl
    rw [hunf]
    by_cases hcase : lo < hi
    · rw [if_pos hcase]
      have hmlt : (lo + hi) / 2 < hi := by omega
      have hmge : lo ≤ (lo + hi) / 2 := by omega
      have hmla : (lo + hi) / 2 < a.length := lt_of_lt_of_le hmlt hha
      by_cases hx : x < a.getD ((lo + hi) / 2) 0
      · rw [if_pos hx]
        have h := ih lo ((lo + hi) / 2) (by omega) hmge (le_of_lt hmla) hlo
          (fun i hmi hia => lt_of_lt_of_le hx (hs ((lo + hi) / 2) i hmi hia))
        exact ⟨h.1, le_trans h.2.1 (le_of_lt hmlt), h.2.2.1, h.2.2.2⟩
      · rw [if_neg hx]
        have hmx : a.getD ((lo + hi) / 2) 0 ≤ x := le_of_not_lt hx
        have h := ih ((lo + hi) / 2 + 1) hi (by omega) (by omega) hha
          (fun i hi1 => le_trans (hs i ((lo + hi) / 2) (by omega) hmla) hmx) hhi
        exact ⟨le_trans (by omega) h.1, h.2.1, h.2.2.1, h.2.2.2⟩
    · rw [if_neg hcase]
      exact ⟨le_refl _, hlh, hlo, fun i hge hlt => hhi i (by omega) hlt⟩

theorem bisect_right_spec (a : List Int) (x : Int)
    (hs : ∀ i j, i ≤ j → j < a.length → a.getD i 0 ≤ a.getD j 0) :
    bisect_right a x ≤ a.length ∧
    (∀ i, i < bisect_right a x → a.getD i 0 ≤ x) ∧
    (∀ i, bisect_right a x ≤ i → i < a.length → x < a.getD i 0) := by
  have h := bsGo_spec a x hs a.length 0 a.length (by omega) (Nat.zero_le _)
    (le_refl _) (fun i hilt => absurd hilt (Nat.not_lt_zero i))
    (fun i h1 h2 => absurd h2 (by omega))
  exact ⟨h.2.1, h.2.2.1, h.2.2.2⟩


/-! ### CFBase record lemmas -/

theorem CFBase.update_refl (a : Record) : CFBase.update a a = (a, true) := by
  induction a with
  | nil => rfl
  | cons f fs ih =>
    by_cases hc : f.compare
    · simp [CFBase.update, hc, ih]
    · simp only [CFBase.update, hc, Bool.false_eq_true, if_false, ih]
      cases f
      simp_all

theorem CFBase.update_stable (a b : Record) (h : (CFBase.update a b).2 = true) :
    CFBase.update (CFBase.update a b).1 b = ((CFBase.update a b).1, true) := by
  induction a generalizing b with
  | nil =>
    cases b with
    | nil => rfl
    | cons g gs => simp [CFBase.update] at h
  | cons f fs ih =>
    cases b with
    | nil => simp [CFBase.update] at h
    | cons g gs =>
      by_cases hc : f.compare
      · by_cases hv : f.value == g.value
        · simp only [CFBase.update, hc, hv, if_pos, if_true] at h ⊢
          simp only [ih gs h, hc, hv, if_pos, if_true]
        · simp [CFBase.update, hc, hv] at h
      · simp only [CFBase.update, hc, Bool.false_eq_true, if_false] at h ⊢
        simp [ih gs h, hc]

theorem CFBase.compatible_sameShape (a b : Record)
    (h : CFBase.compatible a b = true) : CFBase.sameShape a b = true := by
  simp only [CFBase.compatible, Bool.and_eq_true] at h
  exact h.1

theorem CFBase.compatible_update (a b : Record) (h : CFBase.compatible a b = true) :
    CFBase.update a b = (CFBase.merge_mutable a b, true) := by
  induction a generalizing b with
  | nil =>
    cases b with
    | nil => rfl
    | cons g gs => simp [CFBase.compatible, CFBase.sameShape] at h
  | cons f fs ih =>
    cases b with
    | nil => simp [CFBase.compatible, CFBase.sameShape] at h
    | cons g gs =>
      simp only [CFBase.compatible, CFBase.sameShape, List.zip_cons_cons, List.all_cons,
        Bool.and_eq_true, Bool.or_eq_true, Bool.not_eq_true'] at h
      obtain ⟨⟨⟨hn, hcmp⟩, hsh⟩, hhead, hrest⟩ := h
      have htail : CFBase.compatible fs gs = true := by
        simp only [CFBase.compatible, Bool.and_eq_true]
        exact ⟨hsh, hrest⟩
      by_cases hc : f.compare
      · have hv : f.value == g.value := by
          rcases hhead with h1 | h2
          · rw [hc] at h1; exact absurd h1 (by simp)
          · exact h2
        simp only [CFBase.update, hc, hv, if_pos, if_true, ih gs htail,
          CFBase.merge_mutable, List.zip_cons_cons, List.map_cons]
      · simp only [CFBase.update, hc, Bool.false_eq_true, if_false, ih gs htail,
          CFBase.merge_mutable, List.zip_cons_cons, List.map_cons]

theorem CFBase.update_snd_eq_compatible (a b : Record)
    (h : CFBase.sameShape a b = true) :
    (CFBase.update a b).2 = CFBase.compatible a b := by
  induction a generalizing b with
  | nil =>
    cases b with
    | nil => rfl
    | cons g gs => simp [CFBase.sameShape] at h
  | cons f fs ih =>
    cases b with
    | nil => simp [CFBase.sameShape] at h
    | cons g gs =>
      simp only [CFBase.sameShape, Bool.and_eq_true] at h
      obtain ⟨⟨hn, hcmp⟩, hsh⟩ := h
      have hfg : f.compare = g.compare := eq_of_beq hcmp
      by_cases hc : f.compare
      · have hgc : g.compare = true := by rw [← hfg]; exact hc
        by_cases hv : f.value == g.value
        · rw [show CFBase.update (f :: fs) (g :: gs) =
              (f :: (CFBase.update fs gs).1, (CFBase.update fs gs).2) by
                simp [CFBase.update, hc, hv]]
          rw [ih gs hsh]
          simp [CFBase.compatible, CFBase.sameShape, hn, hcmp, hc, hgc, hv,
            Bool.and_assoc]
        · rw [show CFBase.update (f :: fs) (g :: gs) = (f :: fs, false) by
            simp [CFBase.update, hc, hv]]
          simp [CFBase.compatible, CFBase.sameShape, hc, hv]
      · have hc0 : f.compare = false := by simpa using hc
        have hgc : g.compare = false := by rw [← hfg]; exact hc0
        rw [show CFBase.update (f :: fs) (g :: gs) =
            (⟨f.name, f.compare, g.value⟩ :: (CFBase.update fs gs).1,
              (CFBase.update fs gs).2) by simp [CFBase.update, hc0]]
        rw [ih gs hsh]
        simp [CFBase.compatible, CFBase.sameShape, hn, hcmp, hc0, hgc,
          Bool.and_assoc]

theorem CFBase.sameShape_length (a b : Record) (h : CFBase.sameShape a b = true) :
    b.length = a.length := by
  induction a generalizing b with
  | nil => cases b with
    | nil => rfl
    | cons g gs => simp [CFBase.sameShape] at h
  | cons f fs ih =>
    cases b with
    | nil => simp [CFBase.sameShape] at h
    | cons g gs =>
      simp only [CFBase.sameShape, Bool.and_eq_true] at h
      simp [ih gs h.2]

theorem CFBase.merge_mutable_length (a b : Record)
    (h : CFBase.sameShape a b = true) :
    (CFBase.merge_mutable a b).length = a.length := by
  have hb := CFBase.sameShape_length a b h
  simp [CFBase.merge_mutable, List.length_zip, hb]

theorem CFBase.merge_mutable_getD (a b : Record)
    (h : CFBase.sameShape a b = true) :
    ∀ j, j < a.length →
      (CFBase.merge_mutable a b).getD j fdfl =
        (if (a.getD j fdfl).compare then a.getD j fdfl
         else ⟨(a.getD j fdfl).name, (a.getD j fdfl).compare, (b.getD j fdfl).value⟩) := by
  induction a generalizing b with
  | nil => intro j hj; simp at hj
  | cons f fs ih =>
    cases b with
    | nil => simp [CFBase.sameShape] at h
    | cons g gs =>
      simp only [CFBase.sameShape, Bool.and_eq_true] at h
      intro j hj
      cases j with
      | zero => simp [CFBase.merge_mutable]
      | succ n =>
        simp only [List.length_cons, Nat.succ_lt_succ_iff] at hj
        simpa [CFBase.merge_mutable, List.getD_cons_succ] using
          ih gs h.2 n hj

/-! ### RevisionHistoryWrapper lemmas -/

theorem RevisionHistoryWrapper.end_revision_open (h : RevisionHistoryWrapper) (v : Int)
    (hopen : h.revision_end.getLastD 0 = UNINIT_V) :
    h.end_revision v =
      { h with revision_end := h.revision_end.dropLast ++ [v - 1] } := by
  unfold RevisionHistoryWrapper.end_revision
  rw [if_pos hopen]

theorem RevisionHistoryWrapper.end_revision_closed (h : RevisionHistoryWrapper) (v : Int)
    (hcl : h.revision_end.getLastD 0 ≠ UNINIT_V) :
    h.end_revision v = h := by
  unfold RevisionHistoryWrapper.end_revision
  rw [if_neg hcl]

theorem RevisionHistoryWrapper.end_revision_revisions (h : RevisionHistoryWrapper) (v : Int) :
    (h.end_revision v).revisions = h.revisions := by
  unfold RevisionHistoryWrapper.end_revision
  split <;> rfl

theorem RevisionHistoryWrapper.end_revision_starts (h : RevisionHistoryWrapper) (v : Int) :
    (h.end_revision v).revision_start = h.revision_start := by
  unfold RevisionHistoryWrapper.end_revision
  split <;> rfl

theorem RevisionHistoryWrapper.new_revision_revisions (h : RevisionHistoryWrapper)
    (x : Record) (v : Int) (e : Option Int) :
    (h.new_revision x v e).revisions = h.revisions ++ [x] := by
  unfold RevisionHistoryWrapper.new_revision
  split <;> simp [RevisionHistoryWrapper.end_revision_revisions]

theorem RevisionHistoryWrapper.new_revision_starts (h : RevisionHistoryWrapper)
    (x : Record) (v : Int) (e : Option Int) :
    (h.new_revision x v e).revision_start = h.revision_start ++ [v] := by
  unfold RevisionHistoryWrapper.new_revision
  split <;> simp [RevisionHistoryWrapper.end_revision_starts]

theorem RevisionHistoryWrapper.new_revision_none_eq (h : RevisionHistoryWrapper)
    (x : Record) (v : Int) (hne : h.revision_end ≠ []) :
    h.new_revision x v none =
      ⟨h.revisions ++ [x], h.revision_start ++ [v],
        (h.end_revision v).revision_end ++ [UNINIT_V]⟩ := by
  have hlen : 0 < h.revision_end.length := List.length_pos.mpr hne
  unfold RevisionHistoryWrapper.new_revision
  rw [if_pos ⟨hlen, rfl⟩]
  simp [RevisionHistoryWrapper.end_revision_revisions,
    RevisionHistoryWrapper.end_revision_starts]

theorem RevisionHistoryWrapper.new_revision_some_eq (h : RevisionHistoryWrapper)
    (x : Record) (v : Int) (e : Int) :
    h.new_revision x v (some e) =
      ⟨h.revisions ++ [x], h.revision_start ++ [v], h.revision_end ++ [e]⟩ := by
  unfold RevisionHistoryWrapper.new_revision
  rw [if_neg (by simp)]

theorem RevisionHistoryWrapper.update_success_eq (h : RevisionHistoryWrapper)
    (x : Record) (v : Int)
    (hr : (CFBase.update (h.revisions.getLastD []) x).2 = true) :
    h.update x v =
      { h with revisions :=
          h.revisions.dropLast ++ [(CFBase.update (h.revisions.getLastD []) x).1] } := by
  unfold RevisionHistoryWrapper.update
  rw [if_pos hr]

theorem RevisionHistoryWrapper.update_fail_eq (h : RevisionHistoryWrapper)
    (x : Record) (v : Int)
    (hr : (CFBase.update (h.revisions.getLastD []) x).2 = false) :
    h.update x v = h.new_revision x v none := by
  unfold RevisionHistoryWrapper.update
  rw [if_neg (by rw [hr]; simp)]

theorem RevisionHistoryWrapper.end_revision_idem (h : RevisionHistoryWrapper) (v : Int) :
    (h.end_revision v).end_revision v = h.end_revision v := by
  by_cases hopen : h.revision_end.getLastD 0 = UNINIT_V
  · rw [RevisionHistoryWrapper.end_revision_open h v hopen]
    by_cases hv : v - 1 = UNINIT_V
    · rw [RevisionHistoryWrapper.end_revision_open _ v
        (by simpa [List.getLastD_concat] using hv)]
      simp [List.dropLast_concat]
    · rw [RevisionHistoryWrapper.end_revision_closed _ v
        (by simpa [List.getLastD_concat] using hv)]
  · rw [RevisionHistoryWrapper.end_revision_closed h v hopen,
      RevisionHistoryWrapper.end_revision_closed h v hopen]

theorem RevisionHistoryWrapper.update_idem (h : RevisionHistoryWrapper)
    (x : Record) (v : Int) :
    (h.update x v).update x v = h.update x v := by
  by_cases hr : (CFBase.update (h.revisions.getLastD []) x).2 = true
  · have hstable := CFBase.update_stable _ _ hr
    rw [RevisionHistoryWrapper.update_success_eq h x v hr]
    have hlast :
        ((h.revisions.dropLast ++ [(CFBase.update (h.revisions.getLastD []) x).1])).getLastD []
          = (CFBase.update (h.revisions.getLastD []) x).1 :=
      List.getLastD_concat _ _ _
    rw [RevisionHistoryWrapper.update_success_eq _ x v (by rw [hlast, hstable])]
    rw [hlast, hstable]
    simp [List.dropLast_concat]
  · have hr' : (CFBase.update (h.revisions.getLastD []) x).2 = false := by
      simpa using hr
    rw [RevisionHistoryWrapper.update_fail_eq h x v hr']
    have hrevs := RevisionHistoryWrapper.new_revision_revisions h x v none
    have hlast : (h.new_revision x v none).revisions.getLastD [] = x := by
      rw [hrevs]; exact List.getLastD_concat _ _ _
    rw [RevisionHistoryWrapper.update_success_eq _ x v
      (by rw [hlast, CFBase.update_refl])]
    have : (h.new_revision x v none).revisions.dropLast ++
        [(CFBase.update ((h.new_revision x v none).revisions.getLastD []) x).1]
        = (h.new_revision x v none).revisions := by
      rw [hlast, CFBase.update_refl, hrevs]
      simp [List.dropLast_concat]
    rw [this]

theorem RevisionHistoryWrapper.from_obj_update_idem (x : Record) (v v' : Int) :
    (RevisionHistoryWrapper.from_obj x v').update x v =
      RevisionHistoryWrapper.from_obj x v' := by
  have hlast : (RevisionHistoryWrapper.from_obj x v').revisions.getLastD [] = x := rfl
  rw [RevisionHistoryWrapper.update_success_eq _ x v
    (by rw [hlast, CFBase.update_refl])]
  simp [RevisionHistoryWrapper.from_obj, hlast, CFBase.update_refl]

/-! ### Invariant preservation along ingestion -/

theorem dropLast_append_getLastD {α : Type} (l : List α) (d : α) (h : l ≠ []) :
    l.dropLast ++ [l.getLastD d] = l := by
  rw [List.getLastD_eq_getLast?, List.getLast?_eq_getLast l h]
  exact List.dropLast_append_getLast h

theorem getLast?_eq_some_getLastD {α : Type} (l : List α) (d : α) (h : l ≠ []) :
    l.getLast? = some (l.getLastD d) := by
  rw [List.getLastD_eq_getLast?, List.getLast?_eq_getLast l h]
  simp

theorem RevisionHistoryWrapper.end_revision_length (h : RevisionHistoryWrapper)
    (v : Int) (hne : h.revision_end ≠ []) :
    (h.end_revision v).revision_end.length = h.revision_end.length := by
  unfold RevisionHistoryWrapper.end_revision
  split
  · have := List.length_pos.mpr hne
    simp only [List.length_append, List.length_dropLast, List.length_cons,
      List.length_nil]
    omega
  · rfl

theorem ends_concrete_after_close (h : RevisionHistoryWrapper) (v : Int)
    (hne : h.revision_end ≠ []) (holo : h.onlyLastOpen) (hz : v ≠ 0) :
    ∀ e ∈ (h.end_revision v).revision_end, e ≠ UNINIT_V := by
  by_cases hopen : h.revision_end.getLastD 0 = UNINIT_V
  · rw [RevisionHistoryWrapper.end_revision_open h v hopen]
    intro e he
    rcases List.mem_append.mp he with hd | hl
    · exact holo e hd
    · have : e = v - 1 := by simpa using hl
      subst this
      simp only [UNINIT_V]
      omega
  · rw [RevisionHistoryWrapper.end_revision_closed h v hopen]
    intro e he
    rw [← dropLast_append_getLastD h.revision_end 0 hne] at he
    rcases List.mem_append.mp he with hd | hl
    · exact holo e hd
    · have : e = h.revision_end.getLastD 0 := by simpa using hl
      subst this
      exact hopen

theorem histInv_mono (h : RevisionHistoryWrapper) (v w : Int) (hvw : v ≤ w)
    (hi : histInv h v) : histInv h w :=
  ⟨hi.1, hi.2.1, hi.2.2.1, hi.2.2.2.1, hi.2.2.2.2.1, le_trans hi.2.2.2.2.2 hvw⟩

theorem histInv_end_revision (h : RevisionHistoryWrapper) (v vq : Int)
    (hi : histInv h v) : histInv (h.end_revision vq) v := by
  obtain ⟨ic, io, ine, ils, ile, ilast⟩ := hi
  have hne : h.revision_end ≠ [] := by
    intro hcon
    exact ine (List.length_eq_zero.mp (by rw [← ile, hcon]; rfl))
  refine ⟨?_, ?_, ?_, ?_, ?_, ?_⟩
  · rw [RevisionHistoryWrapper.end_revision_starts]; exact ic
  · unfold RevisionHistoryWrapper.end_revision RevisionHistoryWrapper.onlyLastOpen
    split
    · intro e he
      have he' : e ∈ h.revision_end.dropLast := by
        simpa [List.dropLast_concat] using he
      exact io e he'
    · exact io
  · rw [RevisionHistoryWrapper.end_revision_revisions]; exact ine
  · rw [RevisionHistoryWrapper.end_revision_starts,
      RevisionHistoryWrapper.end_revision_revisions]; exact ils
  · rw [RevisionHistoryWrapper.end_revision_length h vq hne,
      RevisionHistoryWrapper.end_revision_revisions]; exact ile
  · rw [RevisionHistoryWrapper.end_revision_starts]; exact ilast

theorem histInv_new_revision_none (h : RevisionHistoryWrapper) (x : Record)
    (v v' : Int) (hi : histInv h v) (hlt : v < v') (hz : v' ≠ 0) :
    histInv (h.new_revision x v' none) v' := by
  obtain ⟨ic, io, ine, ils, ile, ilast⟩ := hi
  have hpos : 0 < h.revisions.length := List.length_pos.mpr ine
  have hne : h.revision_end ≠ [] := by
    intro hcon
    rw [hcon] at ile
    simp at ile
    omega
  have hsne : h.revision_start ≠ [] := by
    intro hcon
    rw [hcon] at ils
    simp at ils
    omega
  rw [RevisionHistoryWrapper.new_revision_none_eq h x v' hne]
  refine ⟨?_, ?_, ?_, ?_, ?_, ?_⟩
  · rw [List.chain'_append]
    refine ⟨ic, List.chain'_singleton v', ?_⟩
    intro a ha b hb
    rw [getLast?_eq_some_getLastD h.revision_start 0 hsne] at ha
    simp only [Option.mem_def, Option.some.injEq] at ha
    simp only [List.head?_cons, Option.mem_def, Option.some.injEq] at hb
    subst ha
    subst hb
    omega
  · intro e he
    have he' : e ∈ (h.end_revision v').revision_end := by
      simpa [List.dropLast_concat] using he
    exact ends_concrete_after_close h v' hne io hz e he'
  · simp
  · simp only [List.length_append, List.length_cons, List.length_nil]
    omega
  · have := RevisionHistoryWrapper.end_revision_length h v' hne
    simp only [List.length_append, List.length_cons, List.length_nil, this]
    omega
  · rw [List.getLastD_concat]

theorem histInv_update (h : RevisionHistoryWrapper) (x : Record) (v v' : Int)
    (hi : histInv h v) (hlt : v < v') (hz : v' ≠ 0) :
    histInv (h.update x v') v' := by
  by_cases hr : (CFBase.update (h.revisions.getLastD []) x).2 = true
  · obtain ⟨ic, io, ine, ils, ile, ilast⟩ := hi
    have hpos : 0 < h.revisions.length := List.length_pos.mpr ine
    rw [RevisionHistoryWrapper.update_success_eq h x v' hr]
    refine ⟨ic, io, by simp, ?_, ?_, le_trans ilast (le_of_lt hlt)⟩
    · simp only [List.length_append, List.length_dropLast, List.length_cons,
        List.length_nil]
      omega
    · simp only [List.length_append, List.length_dropLast, List.length_cons,
        List.length_nil]
      omega
  · have hr' : (CFBase.update (h.revisions.getLastD []) x).2 = false := by
      simpa using hr
    rw [RevisionHistoryWrapper.update_fail_eq h x v' hr']
    exact histInv_new_revision_none h x v v' hi hlt hz

theorem histInv_from_obj (r : Record) (v : Int) :
    histInv (RevisionHistoryWrapper.from_obj r v) v := by
  refine ⟨?_, ?_, ?_, ?_, ?_, ?_⟩ <;>
    simp [RevisionHistoryWrapper.from_obj, RevisionHistoryWrapper.onlyLastOpen]

theorem built_histInv (P : Int → Prop) (hP : ∀ u, P u → u ≠ 0)
    (h : RevisionHistoryWrapper) (v : Int) (hb : Built P h v) : histInv h v := by
  induction hb with
  | init r v => exact histInv_from_obj r v
  | step hb hlt hPv hstep ih =>
    cases hstep with
    | update x => exact histInv_update _ x _ _ ih hlt (hP _ hPv)
    | newRev x => exact histInv_new_revision_none _ x _ _ ih hlt (hP _ hPv)
    | endRev =>
      exact histInv_mono _ _ _ (le_of_lt hlt) (histInv_end_revision _ _ _ ih)

/-! ### Association list lemmas -/

theorem XMLProcessor.alookup_append {α : Type} (l1 l2 : List (String × α)) (k : String) :
    XMLProcessor.alookup (l1 ++ l2) k =
      (XMLProcessor.alookup l1 k).or (XMLProcessor.alookup l2 k) := by
  induction l1 with
  | nil => simp [XMLProcessor.alookup]
  | cons p rest ih =>
    obtain ⟨k', v'⟩ := p
    by_cases hk : k' = k <;> simp [XMLProcessor.alookup, hk, ih]

theorem XMLProcessor.alookup_map_fst_preserving {α β : Type} (l : List (String × α))
    (f : String → α → β) (k : String) :
    XMLProcessor.alookup (l.map fun p => (p.1, f p.1 p.2)) k =
      (XMLProcessor.alookup l k).map (f k) := by
  induction l with
  | nil => simp [XMLProcessor.alookup]
  | cons p rest ih =>
    obtain ⟨k', v'⟩ := p
    by_cases hk : k' = k
    · subst hk
      simp [XMLProcessor.alookup]
    · simp [XMLProcessor.alookup, hk, ih]

theorem XMLProcessor.alookup_isSome_of_mem {α : Type} (l : List (String × α))
    (k : String) (x : α) (hmem : (k, x) ∈ l) :
    (XMLProcessor.alookup l k).isSome = true := by
  induction l with
  | nil => simp at hmem
  | cons p rest ih =>
    obtain ⟨k', v'⟩ := p
    by_cases hk : k' = k
    · simp [XMLProcessor.alookup, hk]
    · rcases List.mem_cons.mp hmem with hp | hr
      · exact absurd (congrArg Prod.fst hp).symm hk
      · simp [XMLProcessor.alookup, hk, ih hr]

theorem XMLProcessor.alookup_eq_of_mem_nodup {α : Type} (l : List (String × α))
    (k : String) (x : α) (hmem : (k, x) ∈ l) (hnd : (l.map Prod.fst).Nodup) :
    XMLProcessor.alookup l k = some x := by
  induction l with
  | nil => simp at hmem
  | cons p rest ih =>
    obtain ⟨k', v'⟩ := p
    simp only [List.map_cons, List.nodup_cons] at hnd
    rcases List.mem_cons.mp hmem with hp | hr
    · obtain ⟨hk, hv⟩ := Prod.mk.injEq .. ▸ hp.symm
      simp [XMLProcessor.alookup, hk.symm, hv]
    · have hk : k' ≠ k := by
        intro hcon
        subst hcon
        exact hnd.1 (List.mem_map.mpr ⟨(k', x), hr, rfl⟩)
      simp [XMLProcessor.alookup, hk, ih hr hnd.2]

theorem XMLProcessor.alookup_assocSet_self {α : Type} (l : List (String × α))
    (k : String) (v : α) :
    XMLProcessor.alookup (XMLProcessor.assocSet l k v) k = some v := by
  induction l with
  | nil => simp [XMLProcessor.assocSet, XMLProcessor.alookup]
  | cons p rest ih =>
    obtain ⟨k', v'⟩ := p
    by_cases hk : k' = k <;>
      simp [XMLProcessor.assocSet, XMLProcessor.alookup, hk, ih]

theorem XMLProcessor.alookup_assocSet_other {α : Type} (l : List (String × α))
    (k q : String) (v : α) (hq : q ≠ k) :
    XMLProcessor.alookup (XMLProcessor.assocSet l k v) q =
      XMLProcessor.alookup l q := by
  have hk : ¬ k = q := fun hcon => hq hcon.symm
  induction l with
  | nil => simp [XMLProcessor.assocSet, XMLProcessor.alookup, hk]
  | cons p rest ih =>
    obtain ⟨k0, v0⟩ := p
    by_cases h0 : k0 = k
    · subst h0
      simp [XMLProcessor.assocSet, XMLProcessor.alookup, hk]
    · simp [XMLProcessor.assocSet, XMLProcessor.alookup, h0, ih]

/-! ### Snapshot construction lemmas -/

theorem XMLProcessor.snapStep_count_ge (acc : List (String × Record) × Nat)
    (kv : String × Record) : acc.2 ≤ (XMLProcessor.snapStep acc kv).2 := by
  unfold XMLProcessor.snapStep
  cases XMLProcessor.alookup acc.1 kv.1 with
  | none => exact le_refl _
  | some v0 =>
    by_cases hv : CFBase.compatible v0 kv.2 <;> simp [hv]

theorem CFBase.compatible_refl (a : Record) : CFBase.compatible a a = true := by
  induction a with
  | nil => rfl
  | cons f fs ih =>
    simp only [CFBase.compatible, CFBase.sameShape, List.zip_cons_cons, List.all_cons,
      Bool.and_eq_true, Bool.or_eq_true, Bool.not_eq_true'] at ih ⊢
    refine ⟨⟨⟨by simp, by simp⟩, ih.1⟩, ?_, ih.2⟩
    by_cases hc : f.compare
    · right
      simp
    · left
      simpa using hc

theorem CFBase.compatible_symm (a b : Record) (h : CFBase.compatible a b = true) :
    CFBase.compatible b a = true := by
  induction a generalizing b with
  | nil =>
    cases b with
    | nil => rfl
    | cons g gs => simp [CFBase.compatible, CFBase.sameShape] at h
  | cons f fs ih =>
    cases b with
    | nil => simp [CFBase.compatible, CFBase.sameShape] at h
    | cons g gs =>
      simp only [CFBase.compatible, CFBase.sameShape, List.zip_cons_cons, List.all_cons,
        Bool.and_eq_true, Bool.or_eq_true, Bool.not_eq_true'] at h ⊢
      obtain ⟨⟨⟨hn, hcmp⟩, hsh⟩, hhead, hrest⟩ := h
      have htail := ih gs (by
        simp only [CFBase.compatible, Bool.and_eq_true]
        exact ⟨hsh, hrest⟩)
      simp only [CFBase.compatible, Bool.and_eq_true] at htail
      have hfn : f.name = g.name := eq_of_beq hn
      have hfc : f.compare = g.compare := eq_of_beq hcmp
      refine ⟨⟨⟨by simp [hfn], by simp [hfc]⟩, htail.1⟩, ?_, htail.2⟩
      rcases hhead with h1 | h2
      · left
        rw [← hfc]
        exact h1
      · right
        simp [eq_of_beq h2]

theorem CFBase.compatible_trans (a b c : Record) (hab : CFBase.compatible a b = true)
    (hbc : CFBase.compatible b c = true) : CFBase.compatible a c = true := by
  induction a generalizing b c with
  | nil =>
    cases b with
    | nil =>
      cases c with
      | nil => rfl
      | cons e es => simp [CFBase.compatible, CFBase.sameShape] at hbc
    | cons g gs => simp [CFBase.compatible, CFBase.sameShape] at hab
  | cons f fs ih =>
    cases b with
    | nil => simp [CFBase.compatible, CFBase.sameShape] at hab
    | cons g gs =>
      cases c with
      | nil => simp [CFBase.compatible, CFBase.sameShape] at hbc
      | cons e es =>
        simp only [CFBase.compatible, CFBase.sameShape, List.zip_cons_cons,
          List.all_cons, Bool.and_eq_true, Bool.or_eq_true,
          Bool.not_eq_true'] at hab hbc ⊢
        obtain ⟨⟨⟨hn1, hc1⟩, hsh1⟩, hh1, hr1⟩ := hab
        obtain ⟨⟨⟨hn2, hc2⟩, hsh2⟩, hh2, hr2⟩ := hbc
        have htail := ih gs es
          (by simp only [CFBase.compatible, Bool.and_eq_true]; exact ⟨hsh1, hr1⟩)
          (by simp only [CFBase.compatible, Bool.and_eq_true]; exact ⟨hsh2, hr2⟩)
        simp only [CFBase.compatible, Bool.and_eq_true] at htail
        refine ⟨⟨⟨by simp [eq_of_beq hn1, eq_of_beq hn2],
          by simp [eq_of_beq hc1, eq_of_beq hc2]⟩, htail.1⟩, ?_, htail.2⟩
        rcases hh1 with h1 | h1
        · left
          exact h1
        · rcases hh2 with h2 | h2
          · left
            rw [eq_of_beq hc1]
            exact h2
          · right
            simp [eq_of_beq h1, eq_of_beq h2]

theorem allCompat_cons_of_compat (v0 v : Record) (vs : List Record)
    (hc : CFBase.compatible v0 v = true) (h : allCompat (v :: vs)) :
    allCompat (v0 :: v :: vs) := by
  intro a ha b hb
  rcases List.mem_cons.mp ha with ha0 | ha'
  · rcases List.mem_cons.mp hb with hb0 | hb'
    · rw [ha0, hb0]
      exact CFBase.compatible_refl v0
    · rw [ha0]
      exact CFBase.compatible_trans v0 v b hc (h v (List.mem_cons_self v vs) b hb')
  · rcases List.mem_cons.mp hb with hb0 | hb'
    · rw [hb0]
      exact CFBase.compatible_symm v0 a
        (CFBase.compatible_trans v0 v a hc (h v (List.mem_cons_self v vs) a ha'))
    · exact h a ha' b hb'

theorem getLast?_cons_or (v : Record) (vs : List Record) (o : Option Record) :
    ((v :: vs).getLast?).or o = (vs.getLast?).or (some v) := by
  cases vs with
  | nil => simp
  | cons w ws =>
    rw [List.getLast?_cons_cons]
    cases hl : (w :: ws).getLast? with
    | none => simp [List.getLast?_cons_cons] at hl
    | some a => simp

theorem snapshot_fold_spec (k : String) (obs : List (String × Record)) :
    ∀ acc : List (String × Record) × Nat,
    XMLProcessor.alookup (obs.foldl XMLProcessor.snapStep acc).1 k =
      ((valuesOf k obs).getLast?).or (XMLProcessor.alookup acc.1 k) ∧
    acc.2 ≤ (obs.foldl XMLProcessor.snapStep acc).2 ∧
    (¬ allCompat ((XMLProcessor.alookup acc.1 k).toList ++ valuesOf k obs) →
      acc.2 < (obs.foldl XMLProcessor.snapStep acc).2) := by
  induction obs with
  | nil =>
    intro acc
    refine ⟨by simp [valuesOf], le_refl _, ?_⟩
    intro hne
    exfalso
    apply hne
    intro a ha b hb
    simp only [valuesOf, List.filter_nil, List.map_nil, List.append_nil] at ha hb
    cases hl : XMLProcessor.alookup acc.1 k with
    | none =>
      rw [hl] at ha
      simp at ha
    | some w =>
      rw [hl] at ha hb
      simp only [Option.toList_some, List.mem_singleton] at ha hb
      rw [ha, hb]
      exact CFBase.compatible_refl w
  | cons p rest ih =>
    intro acc
    obtain ⟨k', v'⟩ := p
    simp only [List.foldl_cons]
    by_cases hk : k' = k
    · subst hk
      have hvals : valuesOf k' ((k', v') :: rest) = v' :: valuesOf k' rest := by
        simp [valuesOf]
      have hsetlookup :
          XMLProcessor.alookup (XMLProcessor.snapStep acc (k', v')).1 k' = some v' := by
        unfold XMLProcessor.snapStep
        exact XMLProcessor.alookup_assocSet_self acc.1 k' v'
      obtain ⟨ih1, ih2, ih3⟩ := ih (XMLProcessor.snapStep acc (k', v'))
      have hstep := XMLProcessor.snapStep_count_ge acc (k', v')
      refine ⟨?_, le_trans hstep ih2, ?_⟩
      · rw [ih1, hsetlookup, hvals, getLast?_cons_or]
      · intro hne
        rw [hvals] at hne
        cases hl : XMLProcessor.alookup acc.1 k' with
        | none =>
          rw [hl] at hne
          simp only [Option.toList_none, List.nil_append] at hne
          have hne' : ¬ allCompat ((XMLProcessor.alookup
              (XMLProcessor.snapStep acc (k', v')).1 k').toList ++ valuesOf k' rest) := by
            rw [hsetlookup]
            simpa using hne
          have hcount : (XMLProcessor.snapStep acc (k', v')).2 = acc.2 := by
            unfold XMLProcessor.snapStep
            rw [hl]
          have := ih3 hne'
          omega
        | some v0 =>
          by_cases hv : CFBase.compatible v0 v' = true
          · rw [hl] at hne
            simp only [Option.toList_some, List.singleton_append] at hne
            have hne2 : ¬ allCompat (v' :: valuesOf k' rest) := by
              intro hcon
              exact hne (allCompat_cons_of_compat v0 v' (valuesOf k' rest) hv hcon)
            have hne' : ¬ allCompat ((XMLProcessor.alookup
                (XMLProcessor.snapStep acc (k', v')).1 k').toList ++
                valuesOf k' rest) := by
              rw [hsetlookup]
              simpa using hne2
            have hcount : (XMLProcessor.snapStep acc (k', v')).2 = acc.2 := by
              unfold XMLProcessor.snapStep
              rw [hl]
              simp [hv]
            have := ih3 hne'
            omega
          · have hcount : (XMLProcessor.snapStep acc (k', v')).2 = acc.2 + 1 := by
              unfold XMLProcessor.snapStep
              rw [hl]
              simp [hv]
            omega
    · have hvals : valuesOf k ((k', v') :: rest) = valuesOf k rest := by
        simp [valuesOf, hk]
      have hsetlookup :
          XMLProcessor.alookup (XMLProcessor.snapStep acc (k', v')).1 k =
            XMLProcessor.alookup acc.1 k := by
        unfold XMLProcessor.snapStep
        exact XMLProcessor.alookup_assocSet_other acc.1 k' k v'
          (fun hcon => hk hcon.symm)
      obtain ⟨ih1, ih2, ih3⟩ := ih (XMLProcessor.snapStep acc (k', v'))
      have hstep := XMLProcessor.snapStep_count_ge acc (k', v')
      refine ⟨?_, le_trans hstep ih2, ?_⟩
      · rw [ih1, hsetlookup, hvals]
      · intro hne
        have hne' : ¬ allCompat ((XMLProcessor.alookup
            (XMLProcessor.snapStep acc (k', v')).1 k).toList ++ valuesOf k rest) := by
          rw [hsetlookup, ← hvals]
          exact hne
        have := ih3 hne'
        omega

theorem fold_end_revision_noop (rs : List Int) :
    ∀ h : RevisionHistoryWrapper, h.revision_end.getLastD 0 ≠ UNINIT_V →
      List.foldl (fun acc v => acc.end_revision v) h rs = h := by
  induction rs with
  | nil => intro h _; rfl
  | cons r rest ih =>
    intro h hcl
    simp only [List.foldl_cons, RevisionHistoryWrapper.end_revision_closed h r hcl]
    exact ih h hcl

/-! ### Claim theorems -/

/-- C3: updating a history whose last revision is open with an incompatible
record closes the open revision with end marker r - 1, appends a new open
revision holding the incoming record with start r, and leaves the closed
revision's attribute values exactly as they were before the update attempt
(the in-place mutation attempted by CFBase.update is rolled back). -/
theorem claim_C3_incompatible_branch (h : RevisionHistoryWrapper) (x : Record)
    (r : Int) (hne : h.revisions ≠ []) (hee : h.revision_end ≠ [])
    (hopen : h.revision_end.getLastD 0 = UNINIT_V)
    (hsh : CFBase.sameShape (h.revisions.getLastD []) x = true)
    (hinc : CFBase.compatible (h.revisions.getLastD []) x = false) :
    h.update x r =
      ⟨h.revisions ++ [x], h.revision_start ++ [r],
        (h.revision_end.dropLast ++ [r - 1]) ++ [UNINIT_V]⟩ ∧
    (h.update x r).revisions.getD (h.revisions.length - 1) [] =
      h.revisions.getLastD [] := by
  have hfail : (CFBase.update (h.revisions.getLastD []) x).2 = false := by
    rw [CFBase.update_snd_eq_compatible _ _ hsh, hinc]
  have heq : h.update x r =
      ⟨h.revisions ++ [x], h.revision_start ++ [r],
        (h.revision_end.dropLast ++ [r - 1]) ++ [UNINIT_V]⟩ := by
    rw [RevisionHistoryWrapper.update_fail_eq h x r hfail,
      RevisionHistoryWrapper.new_revision_none_eq h x r hee,
      RevisionHistoryWrapper.end_revision_open h r hopen]
  refine ⟨heq, ?_⟩
  rw [heq]
  have hpos : 0 < h.revisions.length := List.length_pos.mpr hne
  have hidx : h.revisions.length - 1 < h.revisions.length := by omega
  show (h.revisions ++ [x]).getD (h.revisions.length - 1) [] =
    h.revisions.getLastD []
  rw [List.getD_append _ _ _ _ hidx, getLastD_eq_getD h.revisions [] hne]

/-- C3 witness: the Scenario B branch at release 3 on a history opened at
release 1. -/
theorem claim_C3_witness :
    (RevisionHistoryWrapper.from_obj recX 1).update recY 3 =
      ⟨(RevisionHistoryWrapper.from_obj recX 1).revisions ++ [recY],
       (RevisionHistoryWrapper.from_obj recX 1).revision_start ++ [3],
       ((RevisionHistoryWrapper.from_obj recX 1).revision_end.dropLast ++ [3 - 1])
         ++ [UNINIT_V]⟩ ∧
    ((RevisionHistoryWrapper.from_obj recX 1).update recY 3).revisions.getD
        ((RevisionHistoryWrapper.from_obj recX 1).revisions.length - 1) [] =
      (RevisionHistoryWrapper.from_obj recX 1).revisions.getLastD [] :=
  claim_C3_incompatible_branch (RevisionHistoryWrapper.from_obj recX 1) recY 3
    (by decide) (by decide) (by decide) (by decide) (by decide)

/-- C7: updating a history whose last revision is open with a compatible
record merges in place: every mutable (compare=False) field of the open
revision takes the incoming value, every identity field is unchanged, no
revision is appended, the open end marker and all start/end values are
unchanged, and all earlier revisions are unchanged. -/
theorem claim_C7_compatible_merge (h : RevisionHistoryWrapper) (x : Record)
    (r : Int) (hne : h.revisions ≠ [])
    (hopen : h.revision_end.getLastD 0 = UNINIT_V)
    (hcomp : CFBase.compatible (h.revisions.getLastD []) x = true) :
    (h.update x r).revision_start = h.revision_start ∧
    (h.update x r).revision_end = h.revision_end ∧
    (h.update x r).revisions.length = h.revisions.length ∧
    (h.update x r).revisions.dropLast = h.revisions.dropLast ∧
    (h.update x r).revisions.getLastD [] =
      CFBase.merge_mutable (h.revisions.getLastD []) x ∧
    (∀ j, ((h.revisions.getLastD []).getD j fdfl).compare = true →
      ((h.update x r).revisions.getLastD []).getD j fdfl =
        (h.revisions.getLastD []).getD j fdfl) ∧
    (∀ j, j < (h.revisions.getLastD []).length →
      ((h.revisions.getLastD []).getD j fdfl).compare = false →
      ((h.update x r).revisions.getLastD []).getD j fdfl =
        ⟨((h.revisions.getLastD []).getD j fdfl).name, false, (x.getD j fdfl).value⟩) := by
  have hsh := CFBase.compatible_sameShape _ _ hcomp
  have hupd := CFBase.compatible_update _ _ hcomp
  have hsucc : (CFBase.update (h.revisions.getLastD []) x).2 = true := by
    rw [hupd]
  have heq : h.update x r =
      { h with revisions := h.revisions.dropLast ++
          [CFBase.merge_mutable (h.revisions.getLastD []) x] } := by
    rw [RevisionHistoryWrapper.update_success_eq h x r hsucc, hupd]
  have hpos : 0 < h.revisions.length := List.length_pos.mpr hne
  have hlastnew : (h.update x r).revisions.getLastD [] =
      CFBase.merge_mutable (h.revisions.getLastD []) x := by
    rw [heq]
    exact List.getLastD_concat _ _ _
  refine ⟨by rw [heq], by rw [heq], ?_, ?_, hlastnew, ?_, ?_⟩
  · rw [heq]
    simp only [List.length_append, List.length_dropLast, List.length_cons,
      List.length_nil]
    omega
  · rw [heq]
    exact List.dropLast_concat
  · intro j hcmp
    rw [hlastnew]
    by_cases hj : j < (h.revisions.getLastD []).length
    · rw [CFBase.merge_mutable_getD _ _ hsh j hj, if_pos hcmp]
    · have hlen := CFBase.merge_mutable_length _ x hsh
      rw [List.getD_eq_default, List.getD_eq_default]
      · omega
      · omega
  · intro j hj hcmp
    rw [hlastnew, CFBase.merge_mutable_getD _ _ hsh j hj, if_neg (by rw [hcmp]; simp),
      hcmp]

/-- C7 witness: a compatible refresh of the mutable description field at
release 2 on a history opened at release 1. -/
theorem claim_C7_witness :
    ((RevisionHistoryWrapper.from_obj recX 1).update
        [⟨"type", true, "X"⟩, ⟨"desc", false, "e"⟩] 2).revision_start =
      (RevisionHistoryWrapper.from_obj recX 1).revision_start ∧
    ((RevisionHistoryWrapper.from_obj recX 1).update
        [⟨"type", true, "X"⟩, ⟨"desc", false, "e"⟩] 2).revision_end =
      (RevisionHistoryWrapper.from_obj recX 1).revision_end ∧
    ((RevisionHistoryWrapper.from_obj recX 1).update
        [⟨"type", true, "X"⟩, ⟨"desc", false, "e"⟩] 2).revisions.length =
      (RevisionHistoryWrapper.from_obj recX 1).revisions.length := by
  have h := claim_C7_compatible_merge (RevisionHistoryWrapper.from_obj recX 1)
    [⟨"type", true, "X"⟩, ⟨"desc", false, "e"⟩] 2 (by decide) (by decide) (by decide)
  exact ⟨h.1, h.2.1, h.2.2.1⟩

/-- C10: end_revision on a history whose last revision is already closed is a
no-op for every release value; consequently once a retirement at release r
(r not the current-version sentinel 0) has closed the open revision with end
marker r - 1, any sequence of later absences leaves the history, and in
particular its recorded end marker, unchanged. -/
theorem claim_C10_end_revision_noop (h : RevisionHistoryWrapper)
    (hee : h.revision_end ≠ []) :
    (∀ v, h.revision_end.getLastD 0 ≠ UNINIT_V → h.end_revision v = h) ∧
    (∀ r rs, h.revision_end.getLastD 0 = UNINIT_V → r ≠ 0 →
      List.foldl (fun acc v => acc.end_revision v) (h.end_revision r) rs =
        h.end_revision r ∧
      (h.end_revision r).revision_end.getLastD 0 = r - 1) := by
  refine ⟨fun v hcl => RevisionHistoryWrapper.end_revision_closed h v hcl, ?_⟩
  intro r rs hopen hr
  have hlast : (h.end_revision r).revision_end.getLastD 0 = r - 1 := by
    rw [RevisionHistoryWrapper.end_revision_open h r hopen]
    exact List.getLastD_concat _ _ _
  have hcl : (h.end_revision r).revision_end.getLastD 0 ≠ UNINIT_V := by
    rw [hlast]
    simp only [UNINIT_V]
    omega
  exact ⟨fold_end_revision_noop rs _ hcl, hlast⟩

/-- C10 witness: a key retired at release 4 keeps end marker 3 across
absences at releases 5 and 6. -/
theorem claim_C10_witness :
    List.foldl (fun acc v => acc.end_revision v)
      ((⟨[recX], [1], [UNINIT_V]⟩ : RevisionHistoryWrapper).end_revision 4) [5, 6] =
      (⟨[recX], [1], [UNINIT_V]⟩ : RevisionHistoryWrapper).end_revision 4 ∧
    ((⟨[recX], [1], [UNINIT_V]⟩ : RevisionHistoryWrapper).end_revision
        4).revision_end.getLastD 0 = 4 - 1 :=
  (claim_C10_end_revision_noop ⟨[recX], [1], [UNINIT_V]⟩ (by decide)).2 4 [5, 6]
    (by decide) (by decide)

/-- C2 counterexample: over arbitrary strictly increasing release numbers the
claimed invariant fails.  Ingesting at release -1 and then at release 0 is a
strictly increasing chain, yet the end marker computed at release 0 is
0 - 1 = -1, the open sentinel, so the closed-out first revision still reads
as open and the history carries two open end markers. -/
theorem claim_C2_counterexample :
    Built (fun _ => True) historyZeroStep 0 ∧
    historyZeroStep.revision_end = [UNINIT_V, UNINIT_V] ∧
    ¬ historyZeroStep.onlyLastOpen := by
  refine ⟨?_, by decide, by decide⟩
  show Built (fun _ => True)
    ((RevisionHistoryWrapper.from_obj recX (-1)).new_revision recY 0 none) 0
  exact Built.step (Built.init recX (-1)) (by norm_num) trivial (Step.newRev recY)

/-- C2 amended: for every history built from a first observation by ingestion
steps at strictly increasing release numbers, none of which is the reserved
current-version sentinel 0 (where end = release - 1 collides with the open
sentinel -1), the start markers are strictly increasing and every revision
except possibly the last carries a concrete end marker. -/
theorem claim_C2_invariant (h : RevisionHistoryWrapper) (v : Int)
    (hb : Built (fun u => u ≠ 0) h v) :
    h.revision_start.Chain' (· < ·) ∧ h.onlyLastOpen := by
  have hi := built_histInv (fun u => u ≠ 0) (fun u hu => hu) h v hb
  exact ⟨hi.1, hi.2.1⟩

/-- C2 witness: a two-step chain, first observation at release 1 and a
branching update at release 2. -/
theorem claim_C2_witness :
    ((RevisionHistoryWrapper.from_obj recX 1).update recY 2).revision_start.Chain'
      (· < ·) ∧
    ((RevisionHistoryWrapper.from_obj recX 1).update recY 2).onlyLastOpen :=
  claim_C2_invariant _ 2
    (Built.step (Built.init recX 1) (by norm_num) (by norm_num) (Step.update recY))

/-- C4 counterexample: the release value assigned to the current/head
snapshot is the sentinel 0, which does not compare greater than the numbered
release 1. -/
theorem claim_C4_counterexample :
    XMLProcessor.version_of_string "current" = 0 ∧
    ¬ XMLProcessor.version_of_string "current" > XMLProcessor.version_of_string "1" := by
  constructor
  · decide
  · decide

/-- C4 amended: the sentinel release value 0 assigned to the current/head
snapshot compares less than every numbered release (all of which are at least
1); the head snapshot is nevertheless processed after all numbered releases
because v_cleanup places "current" last in the processing order, not because
its value sorts after them. -/
theorem claim_C4_sentinel_order :
    (∀ n : Int, 1 ≤ n → XMLProcessor.version_of_string "current" < n) ∧
    (∀ l : List String, "current" ∈ l →
      (XMLProcessor.v_cleanup l).1.getLast? = some "current") := by
  constructor
  · intro n hn
    have hv : XMLProcessor.version_of_string "current" = 0 := by decide
    omega
  · intro l hl
    simp [XMLProcessor.v_cleanup]

/-- C4 witness: the sentinel sorts before release 3, and "current" is
processed last for the version list consisting of 2, current, 1. -/
theorem claim_C4_witness :
    XMLProcessor.version_of_string "current" < 3 ∧
    (XMLProcessor.v_cleanup ["2", "current", "1"]).1.getLast? = some "current" :=
  ⟨claim_C4_sentinel_order.1 3 (by norm_num),
   claim_C4_sentinel_order.2 ["2", "current", "1"] (by decide)⟩

/-- C1 counterexample: on the Scenario D history (revisions covering [1,2],
[3,3] and [6,open]) the release 5 falls in the retirement gap - the second
revision's concrete end 3 is below 5 and the next start 6 is above it - yet
filter_by_version returns the second revision's record instead of none,
because the code only compares the query against the last revision's end
marker. -/
theorem claim_C1_counterexample :
    scenarioD.revision_start.Sorted (· ≤ ·) ∧
    scenarioD.revision_end.getD 1 0 < 5 ∧
    5 < scenarioD.revision_start.getD 2 0 ∧
    scenarioD.filter_by_version 5 = some recY := by
  exact ⟨by decide, by decide, by decide, by decide⟩

/-- C1 amended: on a non-empty history with sorted start markers,
filter_by_version returns none when the query precedes the first start, and
none when the query is at or past the last start while the last end marker is
concrete and below the query; in every other case it returns the revision
with the greatest start not exceeding the query - even when that revision's
own concrete end is below the query, so interior retirement gaps are bridged
rather than answered with none. -/
theorem claim_C1_amended_lookup (h : RevisionHistoryWrapper) (version : Int)
    (hne : h.revision_start ≠ [])
    (hsorted : h.revision_start.Sorted (· ≤ ·)) :
    (version < h.revision_start.getD 0 0 → h.filter_by_version version = none) ∧
    (h.revision_start.getLastD 0 ≤ version →
      h.revision_end.getLastD 0 ≠ UNINIT_V → h.revision_end.getLastD 0 < version →
      h.filter_by_version version = none) ∧
    (h.revision_start.getD 0 0 ≤ version →
      ¬ (h.revision_start.getLastD 0 ≤ version ∧
          h.revision_end.getLastD 0 ≠ UNINIT_V ∧
          h.revision_end.getLastD 0 < version) →
      ∃ j, j < h.revision_start.length ∧
        h.filter_by_version version = some (h.revisions.getD j []) ∧
        h.revision_start.getD j 0 ≤ version ∧
        ∀ i, j < i → i < h.revision_start.length →
          version < h.revision_start.getD i 0) := by
  have hpos : 0 < h.revision_start.length := List.length_pos.mpr hne
  obtain ⟨hle, hlt_le, hgt⟩ :=
    bisect_right_spec h.revision_start version (sorted_getD_mono _ hsorted)
  have hlast : h.revision_start.getLastD 0 =
      h.revision_start.getD (h.revision_start.length - 1) 0 :=
    getLastD_eq_getD _ 0 hne
  have hfil : h.filter_by_version version =
      (if bisect_right h.revision_start version = 0 then none
       else if bisect_right h.revision_start version = h.revision_start.length ∧
           h.revision_end.getLastD 0 ≠ UNINIT_V ∧
           version > h.revision_end.getLastD 0 then none
       else some (h.revisions.getD (bisect_right h.revision_start version - 1) [])) :=
    rfl
  refine ⟨?_, ?_, ?_⟩
  · intro hv
    have hidx : bisect_right h.revision_start version = 0 := by
      by_contra hcon
      have := hlt_le 0 (by omega)
      omega
    rw [hfil, if_pos hidx]
  · intro hstart hcl hend
    have hidx : bisect_right h.revision_start version = h.revision_start.length := by
      by_contra hcon
      have hlt : bisect_right h.revision_start version ≤ h.revision_start.length - 1 := by
        omega
      have := hgt (h.revision_start.length - 1) hlt (by omega)
      omega
    have hidx0 : bisect_right h.revision_start version ≠ 0 := by omega
    rw [hfil, if_neg hidx0, if_pos ⟨hidx, hcl, hend⟩]
  · intro hv hnot
    have hidx0 : bisect_right h.revision_start version ≠ 0 := by
      intro hcon
      have := hgt 0 (by omega) hpos
      omega
    have hcond : ¬ (bisect_right h.revision_start version = h.revision_start.length ∧
        h.revision_end.getLastD 0 ≠ UNINIT_V ∧
        version > h.revision_end.getLastD 0) := by
      intro hcon
      apply hnot
      refine ⟨?_, hcon.2.1, hcon.2.2⟩
      rw [hlast]
      exact hlt_le (h.revision_start.length - 1) (by omega)
    refine ⟨bisect_right h.revision_start version - 1, by omega, ?_, ?_, ?_⟩
    · rw [hfil, if_neg hidx0, if_neg hcond]
    · exact hlt_le (bisect_right h.revision_start version - 1) (by omega)
    · intro i hji hilen
      exact hgt i (by omega) hilen

/-- C1 witness: querying release 4 on the Scenario D history returns the
revision with the greatest start not exceeding 4. -/
theorem claim_C1_witness :
    ∃ j, j < scenarioD.revision_start.length ∧
      scenarioD.filter_by_version 4 = some (scenarioD.revisions.getD j []) ∧
      scenarioD.revision_start.getD j 0 ≤ 4 ∧
      ∀ i, j < i → i < scenarioD.revision_start.length →
        4 < scenarioD.revision_start.getD i 0 :=
  (claim_C1_amended_lookup scenarioD 4 (by decide) (by decide)).2.2
    (by decide) (by decide)

/-- C5: the program cannot reconstruct any non-pruned history from its
descriptor list.  RevisionHistoryWrapper.from_struct reads
cls.WrappedDataclass, which is always None - WrappedDataclass is an InitVar
whose constructor value is discarded (the class has no post-init hook) and
whose class attribute keeps the default None - so the first descriptor of
every non-empty list raises AttributeError instead of rebuilding a revision.
The descriptor list of a non-empty history is itself non-empty, so the
claimed round trip fails on every non-pruned history. -/
theorem claim_C5_from_struct_raises (h : RevisionHistoryWrapper)
    (hne : h.revisions ≠ [])
    (h1 : h.revision_start.length = h.revisions.length)
    (h2 : h.revision_end.length = h.revisions.length) :
    h.to_struct ≠ [] ∧
    RevisionHistoryWrapper.from_struct h.to_struct =
      Except.error "AttributeError: NoneType object has no attribute from_struct" := by
  have hts : h.to_struct ≠ [] := by
    obtain ⟨rs, ss, es⟩ := h
    cases rs with
    | nil => simp at hne
    | cons r rs0 =>
      cases ss with
      | nil => simp at h1
      | cons sv ss0 =>
        cases es with
        | nil => simp at h2
        | cons ev es0 =>
          simp [RevisionHistoryWrapper.to_struct]
  refine ⟨hts, ?_⟩
  cases hl : h.to_struct with
  | nil => exact absurd hl hts
  | cons d rest => rfl

/-- C5 witness: serializing the Scenario D history produces a non-empty
descriptor list on which from_struct raises. -/
theorem claim_C5_witness :
    scenarioD.to_struct ≠ [] ∧
    RevisionHistoryWrapper.from_struct scenarioD.to_struct =
      Except.error "AttributeError: NoneType object has no attribute from_struct" :=
  claim_C5_from_struct_raises scenarioD (by decide) (by decide) (by decide)

/-- C6: on a non-empty date index, version_from_date raises exactly when the
recorded dates, in ingestion order, are not non-decreasing; otherwise it
returns the latest release whose date does not exceed the query date, or the
earliest recorded release when the query predates all recorded dates. -/
theorem claim_C6_date_lookup (l : List (String × Int)) (dt : Int) (hne : l ≠ []) :
    ((∃ e, RevisionDateList.version_from_date l dt = Except.error e) ↔
      ¬ (l.map Prod.snd).Sorted (· ≤ ·)) ∧
    ((l.map Prod.snd).Sorted (· ≤ ·) →
      ((∀ d ∈ l.map Prod.snd, dt < d) →
        RevisionDateList.version_from_date l dt =
          Except.ok ((l.map Prod.fst).getD 0 "")) ∧
      (¬ (∀ d ∈ l.map Prod.snd, dt < d) →
        ∃ j, j < l.length ∧
          RevisionDateList.version_from_date l dt =
            Except.ok ((l.map Prod.fst).getD j "") ∧
          (l.map Prod.snd).getD j 0 ≤ dt ∧
          ∀ i, j < i → i < l.length → dt < (l.map Prod.snd).getD i 0)) := by
  have hlen : (l.map Prod.snd).length = l.length := List.length_map l Prod.snd
  have hpos : 0 < l.length := List.length_pos.mpr hne
  have hvfd : RevisionDateList.version_from_date l dt =
      (if (l.map Prod.snd) = List.insertionSort (· ≤ ·) (l.map Prod.snd) then
        (if bisect_right (l.map Prod.snd) dt = 0 then
          Except.ok ((l.map Prod.fst).getD 0 "")
        else
          Except.ok ((l.map Prod.fst).getD (bisect_right (l.map Prod.snd) dt - 1) ""))
      else Except.error "Revision dates not in sorted order; lookup will fail") := rfl
  constructor
  · constructor
    · rintro ⟨e, he⟩ hsorted
      rw [hvfd, if_pos (hsorted.insertionSort_eq).symm] at he
      by_cases h0 : bisect_right (l.map Prod.snd) dt = 0
      · rw [if_pos h0] at he
        exact absurd he (by simp)
      · rw [if_neg h0] at he
        exact absurd he (by simp)
    · intro hns
      refine ⟨"Revision dates not in sorted order; lookup will fail", ?_⟩
      rw [hvfd, if_neg ?_]
      intro hcon
      apply hns
      rw [hcon]
      exact List.sorted_insertionSort _ _
  · intro hsorted
    obtain ⟨hle, hlt_le, hgt⟩ :=
      bisect_right_spec (l.map Prod.snd) dt (sorted_getD_mono _ hsorted)
    have hmemD : ∀ i, i < l.length → (l.map Prod.snd).getD i 0 ∈ l.map Prod.snd := by
      intro i hi
      rw [List.getD_eq_getElem (l.map Prod.snd) 0 (by omega)]
      exact List.getElem_mem _
    constructor
    · intro hall
      have h0 : bisect_right (l.map Prod.snd) dt = 0 := by
        by_contra hcon
        have h1 := hlt_le 0 (by omega)
        have h2 := hall _ (hmemD 0 hpos)
        omega
      rw [hvfd, if_pos (hsorted.insertionSort_eq).symm, if_pos h0]
    · intro hnall
      have h0 : bisect_right (l.map Prod.snd) dt ≠ 0 := by
        intro hcon
        apply hnall
        intro d hd
        obtain ⟨i, hi, hdi⟩ := List.mem_iff_getElem.mp hd
        have := hgt i (by omega) (by omega)
        rw [List.getD_eq_getElem (l.map Prod.snd) 0 hi] at this
        omega
      refine ⟨bisect_right (l.map Prod.snd) dt - 1, by omega, ?_, ?_, ?_⟩
      · rw [hvfd, if_pos (hsorted.insertionSort_eq).symm, if_neg h0]
      · exact hlt_le (bisect_right (l.map Prod.snd) dt - 1) (by omega)
      · intro i hji hilen
        exact hgt i (by omega) (by omega)

/-- C6 witness: the spec's date scenario - release 1 dated 2021-01-01 and
release 2 dated 2021-06-01, querying 2021-03-01 returns release 1. -/
theorem claim_C6_witness :
    RevisionDateList.version_from_date dateScenario 20210301 = Except.ok "1" ∧
    ∃ j, j < dateScenario.length ∧
      RevisionDateList.version_from_date dateScenario 20210301 =
        Except.ok ((dateScenario.map Prod.fst).getD j "") ∧
      (dateScenario.map Prod.snd).getD j 0 ≤ 20210301 ∧
      ∀ i, j < i → i < dateScenario.length →
        20210301 < (dateScenario.map Prod.snd).getD i 0 :=
  ⟨rfl, ((claim_C6_date_lookup dateScenario 20210301 (by decide)).2
    (by decide)).2 (by decide)⟩

/-- C9 counterexample: two observations of one key in a single snapshot that
differ only in the mutable (compare=False) description field.  Dataclass
equality ignores compare=False fields, so the source raises no warning: the
built snapshot keeps the later record (last-write-wins) but the warning count
is zero, refuting the claim that differing duplicates are always reported. -/
theorem claim_C9_counterexample :
    recX ≠ [⟨"type", true, "X"⟩, ⟨"desc", false, "zzz"⟩] ∧
    XMLProcessor.alookup
        (XMLProcessor.buildSnapshot
          [("a", recX), ("a", [⟨"type", true, "X"⟩, ⟨"desc", false, "zzz"⟩])]).1 "a" =
      some [⟨"type", true, "X"⟩, ⟨"desc", false, "zzz"⟩] ∧
    (XMLProcessor.buildSnapshot
      [("a", recX), ("a", [⟨"type", true, "X"⟩, ⟨"desc", false, "zzz"⟩])]).2 = 0 := by
  exact ⟨by decide, by decide, by decide⟩

/-- C9 amended: within one snapshot the parsed dict always retains the last
observation for every key (last-write-wins) and snapshot construction is a
total function, so processing continues; a warning is counted when duplicate
observations of a key are unequal under dataclass equality, that is, when
they differ on some identity (compare=True) field - duplicates differing only
in mutable fields are absorbed silently. -/
theorem claim_C9_duplicate_key_lww (obs : List (String × Record)) (k : String) :
    XMLProcessor.alookup (XMLProcessor.buildSnapshot obs).1 k =
      (valuesOf k obs).getLast? ∧
    (∀ v1 ∈ valuesOf k obs, ∀ v2 ∈ valuesOf k obs,
      CFBase.compatible v1 v2 = false →
      0 < (XMLProcessor.buildSnapshot obs).2) := by
  obtain ⟨s1, s2, s3⟩ := snapshot_fold_spec k obs ([], 0)
  constructor
  · show XMLProcessor.alookup (obs.foldl XMLProcessor.snapStep ([], 0)).1 k =
      (valuesOf k obs).getLast?
    rw [s1]
    simp [XMLProcessor.alookup]
  · intro v1 h1 v2 h2 hne
    show 0 < (obs.foldl XMLProcessor.snapStep ([], 0)).2
    apply s3
    intro hcon
    have := hcon v1 (by simpa [XMLProcessor.alookup] using h1) v2
      (by simpa [XMLProcessor.alookup] using h2)
    rw [hne] at this
    exact Bool.false_ne_true this

/-- C9 witness: a key observed twice with records differing on the identity
field keeps the later record and raises a warning. -/
theorem claim_C9_witness :
    XMLProcessor.alookup
        (XMLProcessor.buildSnapshot [("a", recX), ("a", recY)]).1 "a" =
      (valuesOf "a" [("a", recX), ("a", recY)]).getLast? ∧
    0 < (XMLProcessor.buildSnapshot [("a", recX), ("a", recY)]).2 := by
  have h := claim_C9_duplicate_key_lww [("a", recX), ("a", recY)] "a"
  exact ⟨h.1, h.2 recX (by decide) recY (by decide) (by decide)⟩

/-- C8: re-ingesting the same snapshot at the same release immediately after
it was already ingested leaves the whole key-to-history map unchanged: no
history gains a revision, no record changes, no start or end marker changes. -/
theorem claim_C8_reingest_idempotent (m : List (String × RevisionHistoryWrapper))
    (upd : List (String × Record)) (v : Int)
    (hwf : ∀ p ∈ m, p.2.revisions ≠ [] ∧ p.2.revision_end ≠ [])
    (hnd : (upd.map Prod.fst).Nodup) :
    XMLProcessor.dict_update (XMLProcessor.dict_update m upd v) upd v =
      XMLProcessor.dict_update m upd v := by
  have hdu1 : XMLProcessor.dict_update m upd v =
      (m.map fun p => (p.1, match XMLProcessor.alookup upd p.1 with
        | some x => p.2.update x v
        | none => p.2.end_revision v)) ++
      ((upd.filter fun q => (XMLProcessor.alookup m q.1).isNone).map fun q =>
        (q.1, RevisionHistoryWrapper.from_obj q.2 v)) := rfl
  have hcov : (upd.filter fun q =>
      (XMLProcessor.alookup (XMLProcessor.dict_update m upd v) q.1).isNone) = [] := by
    rw [List.filter_eq_nil_iff]
    intro q hq
    have hsplit := XMLProcessor.alookup_append
      (m.map fun p => (p.1, match XMLProcessor.alookup upd p.1 with
        | some x => p.2.update x v
        | none => p.2.end_revision v))
      ((upd.filter fun r => (XMLProcessor.alookup m r.1).isNone).map fun r =>
        (r.1, RevisionHistoryWrapper.from_obj r.2 v)) q.1
    have hmap : XMLProcessor.alookup
        (m.map fun p => (p.1, match XMLProcessor.alookup upd p.1 with
          | some x => p.2.update x v
          | none => p.2.end_revision v)) q.1 =
        (XMLProcessor.alookup m q.1).map
          fun hh => match XMLProcessor.alookup upd q.1 with
            | some x => hh.update x v
            | none => hh.end_revision v :=
      XMLProcessor.alookup_map_fst_preserving m
        (fun kk hh => match XMLProcessor.alookup upd kk with
          | some x => hh.update x v
          | none => hh.end_revision v) q.1
    intro hcon
    rw [hdu1, hsplit, hmap] at hcon
    cases hm : XMLProcessor.alookup m q.1 with
    | some w =>
      rw [hm] at hcon
      simp at hcon
    | none =>
      have hqf : q ∈ upd.filter fun r => (XMLProcessor.alookup m r.1).isNone := by
        rw [List.mem_filter]
        exact ⟨hq, by rw [hm]; rfl⟩
      have hqb : (q.1, RevisionHistoryWrapper.from_obj q.2 v) ∈
          (upd.filter fun r => (XMLProcessor.alookup m r.1).isNone).map fun r =>
            (r.1, RevisionHistoryWrapper.from_obj r.2 v) :=
        List.mem_map.mpr ⟨q, hqf, rfl⟩
      have hsome := XMLProcessor.alookup_isSome_of_mem _ _ _ hqb
      rw [hm] at hcon
      simp at hcon
      rw [hcon] at hsome
      simp at hsome
  have hrfl : XMLProcessor.dict_update (XMLProcessor.dict_update m upd v) upd v =
      ((XMLProcessor.dict_update m upd v).map fun p =>
        (p.1, match XMLProcessor.alookup upd p.1 with
          | some x => p.2.update x v
          | none => p.2.end_revision v)) ++
      ((upd.filter fun q =>
        (XMLProcessor.alookup (XMLProcessor.dict_update m upd v) q.1).isNone).map
          fun q => (q.1, RevisionHistoryWrapper.from_obj q.2 v)) := rfl
  rw [hrfl, hcov]
  simp only [List.map_nil, List.append_nil]
  apply map_eq_self_of_forall
  intro p hp
  rw [hdu1] at hp
  rcases List.mem_append.mp hp with hpA | hpB
  · obtain ⟨q, hqm, rfl⟩ := List.mem_map.mp hpA
    cases halo : XMLProcessor.alookup upd q.1 with
    | some x =>
      simp only [halo]
      simp [RevisionHistoryWrapper.update_idem]
    | none =>
      simp only [halo]
      simp [RevisionHistoryWrapper.end_revision_idem]
  · obtain ⟨q, hqf, rfl⟩ := List.mem_map.mp hpB
    have hq : q ∈ upd := List.mem_of_mem_filter hqf
    have halo : XMLProcessor.alookup upd q.1 = some q.2 :=
      XMLProcessor.alookup_eq_of_mem_nodup upd q.1 q.2 hq hnd
    simp only [halo]
    simp [RevisionHistoryWrapper.from_obj_update_idem]

/-- C8 witness: re-ingesting a two-key snapshot at release 2 over a one-key
map is a no-op the second time. -/
theorem claim_C8_witness :
    XMLProcessor.dict_update
      (XMLProcessor.dict_update [("k", RevisionHistoryWrapper.from_obj recX 1)]
        [("k", recY), ("j", recZ)] 2)
      [("k", recY), ("j", recZ)] 2 =
    XMLProcessor.dict_update [("k", RevisionHistoryWrapper.from_obj recX 1)]
      [("k", recY), ("j", recZ)] 2 :=
  claim_C8_reingest_idempotent [("k", RevisionHistoryWrapper.from_obj recX 1)]
    [("k", recY), ("j", recZ)] 2 (by decide) (by decide)
